import Mathlib

/-!
Verification of the fuzzy-deduplication core of the
remove-duplicates-youtube repository (src/index.py, src/shazam_import.py).

The similarity function of the repository is
  SequenceMatcher(None, str1.lower(), str2.lower()).ratio()
from CPython difflib, called in src/index.py lines 118-129.  The first
section embeds CPython difflib.SequenceMatcher with isjunk=None over lists
of elements with decidable equality:

* b2j / autojunk: an element of the second sequence b is "popular" when
  len(b) >= 200 and its number of occurrences exceeds len(b) / 100 + 1;
  popular elements are dropped from the index b2j, so the inner dynamic
  programming of find_longest_match never matches them (difflib __chain_b).
  With isjunk=None the junk set bjunk is empty.

* find_longest_match(alo, ahi, blo, bhi) scans rows i in [alo, ahi) and,
  inside a row, positions j of a[i] in b in ascending order, keeping the
  run length of consecutive index-matches ending at (i, j); the running
  best is replaced only on a strictly longer run.  Hence the final block
  is the lexicographically first (start in a, then start in b) maximal
  matching run through non-popular positions of b.  We model this as a
  fold with strict improvement over all (i, j) pairs in lexicographic
  order, scoring each pair by the length fr of the maximal matching run
  starting there; pairs that difflib never enumerates score 0 and never
  replace the best, so the two formulations agree.  Afterwards difflib
  widens the block over equal elements regardless of popularity (the
  non-junk extension loops; the junk loops are no-ops since bjunk = {}).

* get_matching_blocks recurses on both sides of the found block;
  ratio() = 2 * (total matched) / (len(a) + len(b)), and 1.0 when both
  are empty (difflib _calculate_ratio).

Recursions are written with an explicit structurally decreasing fuel
argument equal to the quantity that bounds the loop in difflib (so every
definition is executable by kernel reduction); when the fuel is 0 the
guard of the corresponding difflib loop is false as well, so no behaviour
is cut off.  Similarity values are exact rationals: Python computes the
same ratio in double precision, and every comparison made by the program
is modelled at the rational level.
-/

namespace RDY

/-- One element-comparison a[i] == b[j]; false when either index is out of
range (difflib only compares in-range indices, so the guards of the
surrounding loops make this case unreachable there). -/
def eltEq {α : Type} [DecidableEq α] (a b : List α) (i j : Nat) : Bool :=
  match a[i]?, b[j]? with
  | some x, some y => decide (x = y)
  | _, _ => false

/-- difflib __chain_b autojunk: element x of b is popular when
len(b) >= 200 and count(x) > len(b) / 100 + 1. -/
def popularElt {α : Type} [DecidableEq α] (b : List α) (x : α) : Bool :=
  decide (200 ≤ b.length) && decide (b.length / 100 + 1 < b.count x)

/-- Position j of b is indexed by b2j exactly when it is in range and its
element is not popular. -/
def allowedPos {α : Type} [DecidableEq α] (b : List α) (j : Nat) : Bool :=
  match b[j]? with
  | some x => !(popularElt b x)
  | none => false

/-- Length of the maximal matching run starting at (i, j): the largest t
such that for all s < t, i+s < ahi, j+s < bhi, position j+s of b is
indexed by b2j and a[i+s] == b[j+s].  The fuel is ahi - i; when it is 0
the first guard i < ahi is false, so the value is 0 either way. -/
def frAux {α : Type} [DecidableEq α] (a b : List α) (ahi bhi : Nat) :
    Nat → Nat → Nat → Nat
  | 0, _, _ => 0
  | fuel + 1, i, j =>
    if i < ahi ∧ j < bhi ∧ allowedPos b j ∧ eltEq a b i j then
      frAux a b ahi bhi fuel (i + 1) (j + 1) + 1
    else 0

/-- Run length at (i, j), with the canonical fuel. -/
def fr {α : Type} [DecidableEq α] (a b : List α) (ahi bhi i j : Nat) : Nat :=
  frAux a b ahi bhi (ahi - i) i j

/-- All candidate starting pairs of find_longest_match, in the
lexicographic order in which difflib enumerates match ends. -/
def allPairs (alo ahi blo bhi : Nat) : List (Nat × Nat) :=
  (List.range' alo (ahi - alo)).flatMap fun i =>
    (List.range' blo (bhi - blo)).map fun j => (i, j)

/-- One step of the strict-improvement scan: replace the best block only
when the run at p is strictly longer (difflib: if k > bestsize). -/
def scanStep {α : Type} [DecidableEq α] (a b : List α) (ahi bhi : Nat)
    (best : Nat × Nat × Nat) (p : Nat × Nat) : Nat × Nat × Nat :=
  let k := fr a b ahi bhi p.1 p.2
  if best.2.2 < k then (p.1, p.2, k) else best

/-- The dynamic-programming phase of find_longest_match: best block
(besti, bestj, bestsize) through non-popular positions of b. -/
def scanPairs {α : Type} [DecidableEq α] (a b : List α) (ahi bhi : Nat)
    (ps : List (Nat × Nat)) (best : Nat × Nat × Nat) : Nat × Nat × Nat :=
  ps.foldl (scanStep a b ahi bhi) best

/-- difflib backward extension: while besti > alo and bestj > blo and
a[besti-1] == b[bestj-1] (the not-junk test is vacuous, bjunk = {}),
move the block one step left.  Structural on besti. -/
def extendBack {α : Type} [DecidableEq α] (a b : List α) (alo blo : Nat) :
    Nat → Nat → Nat → Nat × Nat × Nat
  | 0, j, k => (0, j, k)
  | i + 1, j, k =>
    if alo < i + 1 ∧ blo < j ∧ eltEq a b i (j - 1) then
      extendBack a b alo blo i (j - 1) (k + 1)
    else (i + 1, j, k)

/-- difflib forward extension: while besti+bestsize < ahi and
bestj+bestsize < bhi and a[besti+bestsize] == b[bestj+bestsize], grow the
block.  Fuel ahi - (i + k); at 0 the first guard is false as well. -/
def extFwdAux {α : Type} [DecidableEq α] (a b : List α) (ahi bhi : Nat) :
    Nat → Nat → Nat → Nat → Nat × Nat × Nat
  | 0, i, j, k => (i, j, k)
  | fuel + 1, i, j, k =>
    if i + k < ahi ∧ j + k < bhi ∧ eltEq a b (i + k) (j + k) then
      extFwdAux a b ahi bhi fuel i j (k + 1)
    else (i, j, k)

/-- Forward extension with the canonical fuel. -/
def extendFwd {α : Type} [DecidableEq α] (a b : List α) (ahi bhi : Nat)
    (t : Nat × Nat × Nat) : Nat × Nat × Nat :=
  extFwdAux a b ahi bhi (ahi - (t.1 + t.2.2)) t.1 t.2.1 t.2.2

/-- difflib SequenceMatcher.find_longest_match(alo, ahi, blo, bhi) with
isjunk=None: the dynamic-programming scan, then both extension phases
(the junk extension loops are no-ops since bjunk is empty). -/
def find_longest_match {α : Type} [DecidableEq α] (a b : List α)
    (alo ahi blo bhi : Nat) : Nat × Nat × Nat :=
  extendFwd a b ahi bhi
    (match scanPairs a b ahi bhi (allPairs alo ahi blo bhi) (alo, blo, 0) with
     | (i, j, k) => extendBack a b alo blo i j k)

/-- Total number of matched elements collected by get_matching_blocks:
take the longest match of the range, recurse on both sides when its size
is nonzero.  Fuel ahi - alo; when it is 0 the longest match of the range
has size 0 (see mtAux_degenerate below), so 0 is returned either way. -/
def mtAux {α : Type} [DecidableEq α] (a b : List α) :
    Nat → Nat → Nat → Nat → Nat → Nat
  | 0, _, _, _, _ => 0
  | fuel + 1, alo, ahi, blo, bhi =>
    match find_longest_match a b alo ahi blo bhi with
    | (i, j, k) =>
      if k = 0 then 0
      else mtAux a b fuel alo i blo j + k + mtAux a b fuel (i + k) ahi (j + k) bhi

/-- Sum of the sizes of the matching blocks of difflib
get_matching_blocks over the given range. -/
def matchTotal {α : Type} [DecidableEq α] (a b : List α)
    (alo ahi blo bhi : Nat) : Nat :=
  mtAux a b (ahi - alo) alo ahi blo bhi

/-- src/index.py lines 118-129: calculate_similarity(str1, str2) returns
SequenceMatcher(None, str1.lower(), str2.lower()).ratio(), that is
2 * matched / (len(a) + len(b)) and 1.0 when both lowered strings are
empty.  Lowercasing is modelled per character by Char.toLower, which
agrees with Python str.lower on the basic latin range used throughout.
The ratio is built with mkRat so that it evaluates by kernel reduction;
calculate_similarity_eq_div below restates it as the literal quotient. -/
def calculate_similarity (str1 str2 : String) : ℚ :=
  let a := str1.data.map Char.toLower
  let b := str2.data.map Char.toLower
  if a.length + b.length = 0 then 1
  else mkRat (2 * matchTotal a b 0 a.length 0 b.length) (a.length + b.length)

end RDY

namespace RDY

variable {α : Type} [DecidableEq α]

/-- eltEq holds exactly when both positions are in range and carry the
same element. -/
theorem eltEq_true_iff (a b : List α) (i j : Nat) :
    eltEq a b i j = true ↔ ∃ x, a[i]? = some x ∧ b[j]? = some x := by
  unfold eltEq
  rcases ha : a[i]? with _ | x <;> rcases hb : b[j]? with _ | y
  · simp
  · simp
  · simp
  · simp only [decide_eq_true_eq]
    constructor
    · rintro rfl; exact ⟨x, rfl, rfl⟩
    · rintro ⟨z, hz1, hz2⟩
      rw [Option.some_inj] at hz1 hz2
      rw [hz1, hz2]

/-- allowedPos only looks at the element stored at the position. -/
theorem allowedPos_eq_of_get (b : List α) (j : Nat) (x : α)
    (h : b[j]? = some x) : allowedPos b j = !popularElt b x := by
  unfold allowedPos; rw [h]

/-- The run length does not depend on the fuel as long as the fuel is at
least ahi - i, the number of loop steps still possible. -/
theorem frAux_eq_of_le (a b : List α) (ahi bhi : Nat) :
    ∀ fuel fuel2 i j, ahi - i ≤ fuel → ahi - i ≤ fuel2 →
      frAux a b ahi bhi fuel i j = frAux a b ahi bhi fuel2 i j := by
  intro fuel
  induction fuel with
  | zero =>
    intro fuel2 i j h1 _
    have hia : ¬ i < ahi := by omega
    cases fuel2 with
    | zero => rfl
    | succ f2 => simp [frAux, hia]
  | succ f ih =>
    intro fuel2 i j h1 h2
    cases fuel2 with
    | zero =>
      have hia : ¬ i < ahi := by omega
      simp [frAux, hia]
    | succ f2 =>
      simp only [frAux]
      by_cases hg : i < ahi ∧ j < bhi ∧ allowedPos b j = true ∧ eltEq a b i j = true
      · rw [if_pos hg, if_pos hg, ih f2 (i + 1) (j + 1) (by omega) (by omega)]
      · rw [if_neg hg, if_neg hg]

/-- A nonzero run stays inside both ranges. -/
theorem frAux_pos_bound (a b : List α) (ahi bhi : Nat) :
    ∀ fuel i j, 0 < frAux a b ahi bhi fuel i j →
      i + frAux a b ahi bhi fuel i j ≤ ahi ∧ j + frAux a b ahi bhi fuel i j ≤ bhi := by
  intro fuel
  induction fuel with
  | zero => intro i j h; simp [frAux] at h
  | succ f ih =>
    intro i j h
    simp only [frAux] at h ⊢
    by_cases hg : i < ahi ∧ j < bhi ∧ allowedPos b j = true ∧ eltEq a b i j = true
    · rw [if_pos hg] at h ⊢
      rcases Nat.eq_zero_or_pos (frAux a b ahi bhi f (i + 1) (j + 1)) with h0 | hpos
      · rw [h0]; omega
      · have := ih (i + 1) (j + 1) hpos; omega
    · rw [if_neg hg] at h; omega

/-- A nonzero run stays inside both ranges (canonical-fuel form). -/
theorem fr_pos_bound (a b : List α) (ahi bhi i j : Nat)
    (h : 0 < fr a b ahi bhi i j) :
    i + fr a b ahi bhi i j ≤ ahi ∧ j + fr a b ahi bhi i j ≤ bhi :=
  frAux_pos_bound a b ahi bhi (ahi - i) i j h

/-- On a pair of equal sequences with equal ranges, the run starting at
(i, j) is at most the run starting on the diagonal at (j, j). -/
theorem frAux_le_diag_right (c : List α) (ahi : Nat) :
    ∀ fuel i j, frAux c c ahi ahi fuel i j ≤ frAux c c ahi ahi fuel j j := by
  intro fuel
  induction fuel with
  | zero => intro i j; simp [frAux]
  | succ f ih =>
    intro i j
    simp only [frAux]
    by_cases hg : i < ahi ∧ j < ahi ∧ allowedPos c j = true ∧ eltEq c c i j = true
    · rcases (eltEq_true_iff c c i j).1 hg.2.2.2 with ⟨x, _, hx2⟩
      have hjj : eltEq c c j j = true := (eltEq_true_iff c c j j).2 ⟨x, hx2, hx2⟩
      rw [if_pos hg, if_pos ⟨hg.2.1, hg.2.1, hg.2.2.1, hjj⟩]
      exact Nat.succ_le_succ (ih (i + 1) (j + 1))
    · rw [if_neg hg]; exact Nat.zero_le _

/-- On a pair of equal sequences with equal ranges, the run starting at
(i, j) is at most the run starting on the diagonal at (i, i). -/
theorem frAux_le_diag_left (c : List α) (ahi : Nat) :
    ∀ fuel i j, frAux c c ahi ahi fuel i j ≤ frAux c c ahi ahi fuel i i := by
  intro fuel
  induction fuel with
  | zero => intro i j; simp [frAux]
  | succ f ih =>
    intro i j
    simp only [frAux]
    by_cases hg : i < ahi ∧ j < ahi ∧ allowedPos c j = true ∧ eltEq c c i j = true
    · rcases (eltEq_true_iff c c i j).1 hg.2.2.2 with ⟨x, hx1, hx2⟩
      have hii : eltEq c c i i = true := (eltEq_true_iff c c i i).2 ⟨x, hx1, hx1⟩
      have hai : allowedPos c i = true := by
        rw [allowedPos_eq_of_get c i x hx1]
        rw [allowedPos_eq_of_get c j x hx2] at hg
        exact hg.2.2.1
      rw [if_pos hg, if_pos ⟨hg.1, hg.1, hai, hii⟩]
      exact Nat.succ_le_succ (ih (i + 1) (j + 1))
    · rw [if_neg hg]; exact Nat.zero_le _

/-- Canonical-fuel version of the right diagonal comparison. -/
theorem fr_le_diag_right (c : List α) (ahi i j : Nat) :
    fr c c ahi ahi i j ≤ fr c c ahi ahi j j := by
  unfold fr
  rw [frAux_eq_of_le c c ahi ahi (ahi - i) ahi i j (by omega) (by omega),
    frAux_eq_of_le c c ahi ahi (ahi - j) ahi j j (by omega) (by omega)]
  exact frAux_le_diag_right c ahi ahi i j

/-- Canonical-fuel version of the left diagonal comparison. -/
theorem fr_le_diag_left (c : List α) (ahi i j : Nat) :
    fr c c ahi ahi i j ≤ fr c c ahi ahi i i := by
  unfold fr
  exact frAux_le_diag_left c ahi (ahi - i) i j

/-- Membership in the enumerated pair list is exactly range membership. -/
theorem mem_allPairs (alo ahi blo bhi : Nat) (p : Nat × Nat) :
    p ∈ allPairs alo ahi blo bhi ↔
      (alo ≤ p.1 ∧ p.1 < ahi) ∧ blo ≤ p.2 ∧ p.2 < bhi := by
  unfold allPairs
  simp only [List.mem_flatMap, List.mem_map, List.mem_range'_1]
  constructor
  · rintro ⟨i, ⟨hi1, hi2⟩, j, ⟨hj1, hj2⟩, rfl⟩
    exact ⟨⟨hi1, by omega⟩, hj1, by omega⟩
  · rintro ⟨⟨h1, h2⟩, h3, h4⟩
    exact ⟨p.1, ⟨h1, by omega⟩, p.2, ⟨h3, by omega⟩, rfl⟩

/-- Strict lexicographic order on index pairs. -/
def pairLex (p q : Nat × Nat) : Prop :=
  p.1 < q.1 ∨ (p.1 = q.1 ∧ p.2 < q.2)

/-- The pair list is lexicographically sorted: difflib meets pairs (and
hence match ends) in this order. -/
theorem allPairs_pairwise (alo ahi blo bhi : Nat) :
    (allPairs alo ahi blo bhi).Pairwise pairLex := by
  unfold allPairs
  generalize ahi - alo = n
  induction n generalizing alo with
  | zero => simp
  | succ n ih =>
    rw [List.range'_succ, List.flatMap_cons]
    refine List.pairwise_append.2 ⟨?_, ih (alo + 1), ?_⟩
    · refine List.Pairwise.map (fun j => (alo, j)) (fun x y hxy => ?_)
        (List.pairwise_lt_range' blo (bhi - blo) 1 (by omega))
      exact Or.inr ⟨rfl, hxy⟩
    · intro p hp q hq
      rcases List.mem_map.1 hp with ⟨x, _, rfl⟩
      rcases List.mem_flatMap.1 hq with ⟨i, hi, hqi⟩
      rcases List.mem_map.1 hqi with ⟨y, _, rfl⟩
      have : alo + 1 ≤ i := (List.mem_range'_1.1 hi).1
      exact Or.inl (by omega)

end RDY

namespace RDY

variable {α : Type} [DecidableEq α]

/-- The strict-improvement fold either keeps its initial value (when no
pair beats it) or returns the first pair whose run is strictly longer
than every earlier run and at least every later run: exactly the
replace-only-on-strictly-longer policy of difflib find_longest_match. -/
theorem scanPairs_spec (a b : List α) (ahi bhi : Nat) :
    ∀ (ps : List (Nat × Nat)) (b0 : Nat × Nat × Nat),
      (scanPairs a b ahi bhi ps b0 = b0 ∧
        ∀ p ∈ ps, fr a b ahi bhi p.1 p.2 ≤ b0.2.2) ∨
      (∃ u p v, ps = u ++ p :: v ∧
        scanPairs a b ahi bhi ps b0 = (p.1, p.2, fr a b ahi bhi p.1 p.2) ∧
        b0.2.2 < fr a b ahi bhi p.1 p.2 ∧
        (∀ q ∈ u, fr a b ahi bhi q.1 q.2 < fr a b ahi bhi p.1 p.2) ∧
        (∀ q ∈ v, fr a b ahi bhi q.1 q.2 ≤ fr a b ahi bhi p.1 p.2)) := by
  intro ps
  induction ps with
  | nil => intro b0; left; exact ⟨rfl, by simp⟩
  | cons q t ih =>
    intro b0
    have hstep : scanPairs a b ahi bhi (q :: t) b0 =
        scanPairs a b ahi bhi t (scanStep a b ahi bhi b0 q) := rfl
    by_cases himp : b0.2.2 < fr a b ahi bhi q.1 q.2
    · have hq : scanStep a b ahi bhi b0 q = (q.1, q.2, fr a b ahi bhi q.1 q.2) := by
        unfold scanStep; rw [if_pos himp]
      rcases ih (q.1, q.2, fr a b ahi bhi q.1 q.2) with ⟨heq, hall⟩ | ⟨u, p, v, hsp, heq, hlt, hu, hv⟩
      · right
        refine ⟨[], q, t, rfl, ?_, himp, by simp, ?_⟩
        · rw [hstep, hq, heq]
        · intro r hr; exact hall r hr
      · right
        refine ⟨q :: u, p, v, by simp [hsp], ?_, ?_, ?_, hv⟩
        · rw [hstep, hq, heq]
        · exact lt_trans himp hlt
        · intro r hr
          rcases List.mem_cons.1 hr with rfl | hr2
          · exact hlt
          · exact hu r hr2
    · have hq : scanStep a b ahi bhi b0 q = b0 := by
        unfold scanStep; rw [if_neg himp]
      rcases ih b0 with ⟨heq, hall⟩ | ⟨u, p, v, hsp, heq, hlt, hu, hv⟩
      · left
        refine ⟨by rw [hstep, hq, heq], ?_⟩
        intro r hr
        rcases List.mem_cons.1 hr with rfl | hr2
        · omega
        · exact hall r hr2
      · right
        refine ⟨q :: u, p, v, by simp [hsp], by rw [hstep, hq, heq], hlt, ?_, hv⟩
        intro r hr
        rcases List.mem_cons.1 hr with rfl | hr2
        · omega
        · exact hu r hr2

/-- The backward extension never moves the start of the block left of the
range and keeps both block ends in place. -/
theorem extendBack_spec (a b : List α) (alo blo : Nat) :
    ∀ i j k, alo ≤ i → blo ≤ j →
      alo ≤ (extendBack a b alo blo i j k).1 ∧
      blo ≤ (extendBack a b alo blo i j k).2.1 ∧
      (extendBack a b alo blo i j k).1 + (extendBack a b alo blo i j k).2.2 = i + k ∧
      (extendBack a b alo blo i j k).2.1 + (extendBack a b alo blo i j k).2.2 = j + k := by
  intro i
  induction i with
  | zero =>
    intro j k hi hj
    exact ⟨hi, hj, rfl, rfl⟩
  | succ i ih =>
    intro j k hi hj
    simp only [extendBack]
    by_cases hg : alo < i + 1 ∧ blo < j ∧ eltEq a b i (j - 1) = true
    · rw [if_pos hg]
      have := ih (j - 1) (k + 1) (by omega) (by omega)
      omega
    · rw [if_neg hg]
      exact ⟨hi, hj, rfl, rfl⟩

/-- When the backward loop guard fails at once, the block is unchanged. -/
theorem extendBack_stop (a b : List α) (alo blo i j k : Nat)
    (h : ¬ alo < i) : extendBack a b alo blo i j k = (i, j, k) := by
  cases i with
  | zero => simp [extendBack]
  | succ i =>
    simp only [extendBack]
    rw [if_neg (by intro hc; exact h hc.1)]

/-- The forward extension never moves the start of the block. -/
theorem extFwdAux_fst (a b : List α) (ahi bhi : Nat) :
    ∀ fuel i j k, (extFwdAux a b ahi bhi fuel i j k).1 = i ∧
      (extFwdAux a b ahi bhi fuel i j k).2.1 = j := by
  intro fuel
  induction fuel with
  | zero => intro i j k; exact ⟨rfl, rfl⟩
  | succ f ih =>
    intro i j k
    simp only [extFwdAux]
    by_cases hg : i + k < ahi ∧ j + k < bhi ∧ eltEq a b (i + k) (j + k) = true
    · rw [if_pos hg]; exact ih i j (k + 1)
    · rw [if_neg hg]; exact ⟨rfl, rfl⟩

/-- The forward extension keeps a nonzero block inside both ranges. -/
theorem extFwdAux_bound (a b : List α) (ahi bhi : Nat) :
    ∀ fuel i j k, (0 < k → i + k ≤ ahi ∧ j + k ≤ bhi) →
      (0 < (extFwdAux a b ahi bhi fuel i j k).2.2 →
        i + (extFwdAux a b ahi bhi fuel i j k).2.2 ≤ ahi ∧
        j + (extFwdAux a b ahi bhi fuel i j k).2.2 ≤ bhi) := by
  intro fuel
  induction fuel with
  | zero => intro i j k h; exact h
  | succ f ih =>
    intro i j k h
    simp only [extFwdAux]
    by_cases hg : i + k < ahi ∧ j + k < bhi ∧ eltEq a b (i + k) (j + k) = true
    · rw [if_pos hg]
      exact ih i j (k + 1) (fun _ => by omega)
    · rw [if_neg hg]; exact h

/-- Bounds on the block returned by find_longest_match: the start lies at
or after (alo, blo) and a nonzero block ends inside both ranges. -/
theorem flm_bounds (a b : List α) (alo ahi blo bhi : Nat) :
    alo ≤ (find_longest_match a b alo ahi blo bhi).1 ∧
    blo ≤ (find_longest_match a b alo ahi blo bhi).2.1 ∧
    (0 < (find_longest_match a b alo ahi blo bhi).2.2 →
      (find_longest_match a b alo ahi blo bhi).1 +
        (find_longest_match a b alo ahi blo bhi).2.2 ≤ ahi ∧
      (find_longest_match a b alo ahi blo bhi).2.1 +
        (find_longest_match a b alo ahi blo bhi).2.2 ≤ bhi) := by
  rcases hs : scanPairs a b ahi bhi (allPairs alo ahi blo bhi) (alo, blo, 0) with ⟨si, sj, sk⟩
  have hscan : alo ≤ si ∧ blo ≤ sj ∧ (0 < sk → si + sk ≤ ahi ∧ sj + sk ≤ bhi) ∧
      (sk = 0 → si = alo ∧ sj = blo) := by
    rcases scanPairs_spec a b ahi bhi (allPairs alo ahi blo bhi) (alo, blo, 0) with
      ⟨heq, _⟩ | ⟨u, p, v, hsp, heq, hlt, _, _⟩
    · rw [hs] at heq
      injection heq with h1 h2
      injection h2 with h2 h3
      subst h1; subst h2; subst h3
      exact ⟨le_refl _, le_refl _, by omega, fun _ => ⟨rfl, rfl⟩⟩
    · rw [hs] at heq
      injection heq with h1 h2
      injection h2 with h2 h3
      subst h1; subst h2; subst h3
      have hp : p ∈ allPairs alo ahi blo bhi := by
        rw [hsp]; exact List.mem_append.2 (Or.inr (List.mem_cons_self p v))
      have hb := (mem_allPairs alo ahi blo bhi p).1 hp
      refine ⟨hb.1.1, hb.2.1, fun hpos => fr_pos_bound a b ahi bhi p.1 p.2 hpos,
        fun h0 => ?_⟩
      simp only [h0] at hlt
      omega
  simp only [find_longest_match, hs]
  set E := extendBack a b alo blo si sj sk with hE
  have hback := extendBack_spec a b alo blo si sj sk hscan.1 hscan.2.1
  rw [← hE] at hback
  have hEk : 0 < E.2.2 → E.1 + E.2.2 ≤ ahi ∧ E.2.1 + E.2.2 ≤ bhi := by
    intro hpos
    rcases Nat.eq_zero_or_pos sk with h0 | hposk
    · have halo := hscan.2.2.2 h0
      have hstop : E = (si, sj, sk) := by
        rw [hE]; exact extendBack_stop a b alo blo si sj sk (by omega)
      rw [hstop] at hpos
      simp only at hpos
      omega
    · have := hscan.2.2.1 hposk
      omega
  have hfst := extFwdAux_fst a b ahi bhi (ahi - (E.1 + E.2.2)) E.1 E.2.1 E.2.2
  have hbnd := extFwdAux_bound a b ahi bhi (ahi - (E.1 + E.2.2)) E.1 E.2.1 E.2.2 hEk
  simp only [extendFwd]
  refine ⟨by omega, by omega, fun hpos => ?_⟩
  have := hbnd hpos
  omega

end RDY

namespace RDY

variable {α : Type} [DecidableEq α]

/-- On equal sequences the backward extension of a diagonal block runs
all the way back to alo. -/
theorem extendBack_diag (c : List α) (alo : Nat) :
    ∀ i k, alo ≤ i → i ≤ c.length →
      extendBack c c alo alo i i k = (alo, alo, k + (i - alo)) := by
  intro i
  induction i with
  | zero =>
    intro k h1 _
    have h0 : alo = 0 := by omega
    subst h0
    rfl
  | succ i ih =>
    intro k h1 h2
    simp only [extendBack, Nat.add_sub_cancel]
    by_cases halo : alo < i + 1
    · have hel : eltEq c c i i = true := by
        have hi : i < c.length := by omega
        exact (eltEq_true_iff c c i i).2
          ⟨_, List.getElem?_eq_getElem hi, List.getElem?_eq_getElem hi⟩
      rw [if_pos ⟨halo, halo, hel⟩]
      have heq2 : (k + 1) + (i - alo) = k + (i + 1 - alo) := by omega
      rw [ih (k + 1) (by omega) (by omega), heq2]
    · rw [if_neg (by intro hc; exact halo hc.1)]
      have h0 : alo = i + 1 := by omega
      subst h0
      simp

/-- On equal sequences the forward extension of a diagonal block runs all
the way forward to ahi. -/
theorem extFwdAux_diag (c : List α) (ahi : Nat) (hlen : ahi ≤ c.length) :
    ∀ fuel x k, fuel = ahi - (x + k) → x + k ≤ ahi →
      extFwdAux c c ahi ahi fuel x x k = (x, x, ahi - x) := by
  intro fuel
  induction fuel with
  | zero =>
    intro x k hf hle
    have hk : k = ahi - x := by omega
    subst hk
    rfl
  | succ f ih =>
    intro x k hf hle
    have hlt : x + k < ahi := by omega
    simp only [extFwdAux]
    have hel : eltEq c c (x + k) (x + k) = true := by
      have hi : x + k < c.length := by omega
      exact (eltEq_true_iff c c (x + k) (x + k)).2
        ⟨_, List.getElem?_eq_getElem hi, List.getElem?_eq_getElem hi⟩
    rw [if_pos ⟨hlt, hlt, hel⟩]
    exact ih x (k + 1) (by omega) (by omega)

/-- On equal sequences with equal ranges, find_longest_match returns the
whole diagonal: the scan finds a (lexicographically first) maximal run,
that run lies on the diagonal, and the extension phases then widen it
over popular elements to the full range. -/
theorem flm_self (c : List α) (alo ahi : Nat) (hlen : ahi ≤ c.length) :
    find_longest_match c c alo ahi alo ahi = (alo, alo, ahi - alo) := by
  rcases hs : scanPairs c c ahi ahi (allPairs alo ahi alo ahi) (alo, alo, 0) with ⟨si, sj, sk⟩
  rcases scanPairs_spec c c ahi ahi (allPairs alo ahi alo ahi) (alo, alo, 0) with
    ⟨heq, _⟩ | ⟨u, p, v, hsp, heq, hlt, hu, hv⟩
  · rw [hs] at heq
    injection heq with h1 h2
    injection h2 with h2 h3
    simp only [find_longest_match, hs, h1, h2, h3]
    rw [extendBack_stop c c alo alo alo alo 0 (by omega)]
    by_cases hle : alo ≤ ahi
    · simp only [extendFwd]
      exact extFwdAux_diag c ahi hlen _ alo 0 rfl ((by omega : alo + 0 ≤ ahi))
    · simp only [extendFwd]
      have h4 : ahi - ((alo, alo, 0).1 + (alo, alo, 0).2.2) = 0 := by
        show ahi - (alo + 0) = 0
        omega
      rw [h4]
      have h5 : ahi - alo = 0 := by omega
      rw [h5]
      rfl
  · rw [hs] at heq
    injection heq with h1 h2
    injection h2 with h2 h3
    subst h1; subst h2; subst h3
    have hp : p ∈ allPairs alo ahi alo ahi := by
      rw [hsp]; exact List.mem_append.2 (Or.inr (List.mem_cons_self p v))
    have hb := (mem_allPairs alo ahi alo ahi p).1 hp
    have hp1 : alo ≤ p.1 := hb.1.1
    have hp2 : p.1 < ahi := hb.1.2
    have hp3 : alo ≤ p.2 := hb.2.1
    have hp4 : p.2 < ahi := hb.2.2
    have hfrpos : 0 < fr c c ahi ahi p.1 p.2 := hlt
    have hdiag : p.1 = p.2 := by
      by_contra hne
      have key : ∃ m, alo ≤ m ∧ m < ahi ∧
          fr c c ahi ahi p.1 p.2 ≤ fr c c ahi ahi m m ∧
          (m < p.1 ∨ (m = p.1 ∧ m < p.2)) := by
        rcases Nat.lt_or_ge p.1 p.2 with h12 | h12
        · exact ⟨p.1, hp1, hp2, fr_le_diag_left c ahi p.1 p.2,
            Or.inr ⟨rfl, h12⟩⟩
        · rcases Nat.lt_or_ge p.2 p.1 with h21 | h21
          · exact ⟨p.2, hp3, hp4, fr_le_diag_right c ahi p.1 p.2,
              Or.inl h21⟩
          · exact absurd (by omega : p.1 = p.2) hne
      obtain ⟨m, hm1, hm2, hfrq, hqlex⟩ := key
      have hq : (m, m) ∈ allPairs alo ahi alo ahi :=
        (mem_allPairs alo ahi alo ahi (m, m)).2 ⟨⟨by omega, by omega⟩, by omega, by omega⟩
      rw [hsp] at hq
      rcases List.mem_append.1 hq with hqu | hqc
      · have hlt2 : fr c c ahi ahi m m < fr c c ahi ahi p.1 p.2 := hu _ hqu
        omega
      · rcases List.mem_cons.1 hqc with heqp | hqv
        · apply hne
          have e1 : m = p.1 := congrArg Prod.fst heqp
          have e2 : m = p.2 := congrArg Prod.snd heqp
          omega
        · have hsort := allPairs_pairwise alo ahi alo ahi
          rw [hsp] at hsort
          have hvpair := (List.pairwise_append.1 hsort).2.1
          have hpq : pairLex p (m, m) := (List.pairwise_cons.1 hvpair).1 _ hqv
          have hpq2 : p.1 < m ∨ (p.1 = m ∧ p.2 < m) := hpq
          omega
    simp only [find_longest_match, hs]
    rw [← hdiag]
    rw [← hdiag] at hfrpos
    have hfr := fr_pos_bound c c ahi ahi p.1 p.1 hfrpos
    rw [extendBack_diag c alo p.1 (fr c c ahi ahi p.1 p.1) hp1 (by omega)]
    simp only [extendFwd]
    exact extFwdAux_diag c ahi hlen _ alo _ rfl
      ((by omega : alo + (fr c c ahi ahi p.1 p.1 + (p.1 - alo)) ≤ ahi))

end RDY

namespace RDY

variable {α : Type} [DecidableEq α]

/-- The matched total is bounded by the width of either range: the blocks
found by the recursion are pairwise disjoint in both sequences. -/
theorem mtAux_le (a b : List α) :
    ∀ fuel alo ahi blo bhi, mtAux a b fuel alo ahi blo bhi ≤ ahi - alo ∧
      mtAux a b fuel alo ahi blo bhi ≤ bhi - blo := by
  intro fuel
  induction fuel with
  | zero =>
    intro alo ahi blo bhi
    exact ⟨Nat.zero_le _, Nat.zero_le _⟩
  | succ f ih =>
    intro alo ahi blo bhi
    have hb := flm_bounds a b alo ahi blo bhi
    rcases hf : find_longest_match a b alo ahi blo bhi with ⟨i, j, k⟩
    rw [hf] at hb
    have hb1 : alo ≤ i := hb.1
    have hb2 : blo ≤ j := hb.2.1
    have hb3 : 0 < k → i + k ≤ ahi ∧ j + k ≤ bhi := hb.2.2
    simp only [mtAux, hf]
    by_cases hk : k = 0
    · rw [if_pos hk]
      exact ⟨Nat.zero_le _, Nat.zero_le _⟩
    · rw [if_neg hk]
      have h1 := ih alo i blo j
      have h2 := ih (i + k) ahi (j + k) bhi
      have h3 := hb3 (Nat.pos_of_ne_zero hk)
      constructor <;> omega

/-- On an empty a-range the matched total is 0: a nonzero block would
have to fit between alo and ahi. -/
theorem mtAux_degenerate (a b : List α) :
    ∀ fuel alo ahi blo bhi, ahi ≤ alo → mtAux a b fuel alo ahi blo bhi = 0 := by
  intro fuel
  cases fuel with
  | zero => intro alo ahi blo bhi _; rfl
  | succ f =>
    intro alo ahi blo bhi hle
    have hb := flm_bounds a b alo ahi blo bhi
    rcases hf : find_longest_match a b alo ahi blo bhi with ⟨i, j, k⟩
    rw [hf] at hb
    have hb1 : alo ≤ i := hb.1
    have hb3 : 0 < k → i + k ≤ ahi ∧ j + k ≤ bhi := hb.2.2
    have hk : k = 0 := by
      by_contra hk0
      have := hb3 (Nat.pos_of_ne_zero hk0)
      omega
    simp only [mtAux, hf, if_pos hk]

/-- On equal sequences with an in-range window the matched total is the
whole window: the longest match is the full diagonal. -/
theorem matchTotal_self (c : List α) (alo ahi : Nat) (hlen : ahi ≤ c.length) :
    matchTotal c c alo ahi alo ahi = ahi - alo := by
  unfold matchTotal
  rcases Nat.eq_zero_or_pos (ahi - alo) with h0 | hpos
  · rw [h0]
    rfl
  · obtain ⟨f, hf⟩ : ∃ f, ahi - alo = f + 1 := ⟨ahi - alo - 1, by omega⟩
    rw [hf]
    simp only [mtAux, flm_self c alo ahi hlen]
    rw [if_neg (by omega)]
    rw [mtAux_degenerate c c f alo alo alo alo (le_refl _)]
    have he : alo + (ahi - alo) = ahi := by omega
    rw [he]
    rw [mtAux_degenerate c c f ahi ahi ahi ahi (le_refl _)]
    omega

/-- The mkRat form of the ratio is the literal quotient
2 * matched / (len a + len b) of difflib _calculate_ratio. -/
theorem calculate_similarity_eq_div (s t : String) :
    calculate_similarity s t =
      if (s.data.map Char.toLower).length + (t.data.map Char.toLower).length = 0 then 1
      else (2 * (matchTotal (s.data.map Char.toLower) (t.data.map Char.toLower) 0
          (s.data.map Char.toLower).length 0 (t.data.map Char.toLower).length : ℚ)) /
        (((s.data.map Char.toLower).length + (t.data.map Char.toLower).length : ℕ) : ℚ) := by
  unfold calculate_similarity
  simp only
  by_cases h : (s.data.map Char.toLower).length + (t.data.map Char.toLower).length = 0
  · rw [if_pos h, if_pos h]
  · rw [if_neg h, if_neg h, Rat.mkRat_eq_divInt, Rat.divInt_eq_div]
    push_cast
    ring

/-- Similarity values are nonnegative. -/
theorem calculate_similarity_nonneg (s t : String) :
    0 ≤ calculate_similarity s t := by
  rw [calculate_similarity_eq_div]
  split
  · norm_num
  · positivity

/-- Similarity values never exceed 1: at most min(len a, len b) elements
can be matched. -/
theorem calculate_similarity_le_one (s t : String) :
    calculate_similarity s t ≤ 1 := by
  rw [calculate_similarity_eq_div]
  split
  · exact le_refl 1
  · rename_i hne
    set a := s.data.map Char.toLower with ha
    set b := t.data.map Char.toLower with hb
    have hM := mtAux_le a b (a.length - 0) 0 a.length 0 b.length
    have hden : (0 : ℚ) < ((a.length + b.length : ℕ) : ℚ) := by
      exact_mod_cast Nat.pos_of_ne_zero hne
    rw [div_le_one hden]
    have hN : 2 * matchTotal a b 0 a.length 0 b.length ≤ a.length + b.length := by
      unfold matchTotal
      omega
    exact_mod_cast hN

/-- When the two lowered strings are equal the similarity is exactly 1
(this covers reflexivity and case-insensitive equality). -/
theorem calculate_similarity_of_lower_eq (s t : String)
    (h : s.data.map Char.toLower = t.data.map Char.toLower) :
    calculate_similarity s t = 1 := by
  rw [calculate_similarity_eq_div]
  simp only [h]
  set c := t.data.map Char.toLower with hc
  split
  · rfl
  · rename_i hne
    rw [matchTotal_self c 0 c.length (le_refl _)]
    have hden : ((c.length + c.length : ℕ) : ℚ) ≠ 0 := by
      exact_mod_cast hne
    rw [Nat.sub_zero]
    rw [div_eq_one_iff_eq hden]
    push_cast
    ring

/-- Reflexivity of the similarity function. -/
theorem calculate_similarity_self (s : String) : calculate_similarity s s = 1 :=
  calculate_similarity_of_lower_eq s s rfl

end RDY

namespace RDY

/-- Round half to even of the fraction n / d (d positive), computed on
integers: f is the floor, r the remainder, the tie 2r = d goes to the
even neighbour (CPython banker rounding, modelled at the rational
level; the recorded scores are never compared by the program). -/
def halfEvenRound (n : ℤ) (d : ℕ) : ℤ :=
  let f := Int.ediv n (d : ℤ)
  let r := n - (d : ℤ) * f
  if 2 * r < (d : ℤ) then f
  else if (d : ℤ) < 2 * r then f + 1
  else if f % 2 = 0 then f else f + 1

/-- Python round(x, 2): round half to even of x * 100, divided by 100
(x * 100 written as the fraction (num * 100) / den so that the value
evaluates by kernel reduction). -/
def round2 (q : ℚ) : ℚ := mkRat (halfEvenRound (q.num * 100) q.den) 100

/-- A playlist entry as built by get_playlist_songs (src/index.py lines
280-294): video id, playlist item id, title and channel. -/
structure Song where
  id : String
  playlistItemId : String
  titulo : String
  artista : String
deriving DecidableEq

/-- One element of the removed_songs list of remove_similar_songs
(src/index.py lines 159-164). -/
structure RemovedRec where
  cancion : Song
  similar_a : Song
  similaridad_titulo : ℚ
  similaridad_artista : ℚ
deriving DecidableEq

/-- The duplicate test of src/index.py line 157: both similarities reach
their thresholds (>= on both dimensions). -/
def bothMatch (tt ta : ℚ) (s k : Song) : Bool :=
  decide (tt ≤ calculate_similarity s.titulo k.titulo) &&
  decide (ta ≤ calculate_similarity s.artista k.artista)

/-- The evidence record appended at src/index.py lines 159-164. -/
def mkRemoved (s k : Song) : RemovedRec :=
  { cancion := s
    similar_a := k
    similaridad_titulo := round2 (calculate_similarity s.titulo k.titulo)
    similaridad_artista := round2 (calculate_similarity s.artista k.artista) }

/-- One iteration of the outer loop of remove_similar_songs (src/index.py
lines 148-168): scan filtered_songs in order, stop at the first entry
that matches on both dimensions (break), record evidence; append to
filtered_songs when no entry matches. -/
def rssStep (tt ta : ℚ) (st : List Song × List RemovedRec) (s : Song) :
    List Song × List RemovedRec :=
  match st.1.find? (fun k => bothMatch tt ta s k) with
  | some k => (st.1, st.2 ++ [mkRemoved s k])
  | none => (st.1 ++ [s], st.2)

/-- src/index.py lines 132-170: remove_similar_songs(songs,
title_threshold, artist_threshold) returns (filtered list, removed
list). -/
def remove_similar_songs (songs : List Song) (tt ta : ℚ) :
    List Song × List RemovedRec :=
  songs.foldl (rssStep tt ta) ([], [])

/-- find? returns the first element satisfying the test: the list splits
at the witness and everything before it fails the test. -/
theorem find?_eq_some_split {β : Type} {p : β → Bool} :
    ∀ {l : List β} {a : β}, l.find? p = some a →
      ∃ u v, l = u ++ a :: v ∧ (∀ x ∈ u, p x = false) ∧ p a = true := by
  intro l
  induction l with
  | nil => intro a h; simp [List.find?] at h
  | cons x t ih =>
    intro a h
    rcases hpx : p x with _ | _
    · rw [List.find?_cons, hpx] at h
      rcases ih h with ⟨u, v, h1, h2, h3⟩
      refine ⟨x :: u, v, by rw [h1]; rfl, ?_, h3⟩
      intro y hy
      rcases List.mem_cons.1 hy with rfl | hy2
      · exact hpx
      · exact h2 y hy2
    · rw [List.find?_cons, hpx] at h
      injection h with h
      exact ⟨[], t, by rw [h]; rfl, by simp, h ▸ hpx⟩

/-- The kept list only grows (by a sublist of the processed input). -/
theorem rss_fold_kept_append (tt ta : ℚ) :
    ∀ (l : List Song) (st : List Song × List RemovedRec),
      ∃ d, (l.foldl (rssStep tt ta) st).1 = st.1 ++ d ∧ List.Sublist d l := by
  intro l
  induction l with
  | nil => intro st; exact ⟨[], by simp, List.nil_sublist []⟩
  | cons s t ih =>
    intro st
    rcases hf : st.1.find? (fun k => bothMatch tt ta s k) with _ | k
    · have hstep : rssStep tt ta st s = (st.1 ++ [s], st.2) := by
        unfold rssStep; rw [hf]
      rcases ih (st.1 ++ [s], st.2) with ⟨d, hd, hsub⟩
      refine ⟨s :: d, ?_, List.cons_sublist_cons.2 hsub⟩
      rw [List.foldl_cons, hstep, hd]
      simp
    · have hstep : rssStep tt ta st s = (st.1, st.2 ++ [mkRemoved s k]) := by
        unfold rssStep; rw [hf]
      rcases ih (st.1, st.2 ++ [mkRemoved s k]) with ⟨d, hd, hsub⟩
      exact ⟨d, by rw [List.foldl_cons, hstep, hd], List.sublist_cons_of_sublist s hsub⟩

/-- Exact bookkeeping of lengths across the fold. -/
theorem rss_fold_length (tt ta : ℚ) :
    ∀ (l : List Song) (st : List Song × List RemovedRec),
      (l.foldl (rssStep tt ta) st).1.length + (l.foldl (rssStep tt ta) st).2.length =
        st.1.length + st.2.length + l.length := by
  intro l
  induction l with
  | nil => intro st; simp
  | cons s t ih =>
    intro st
    rw [List.foldl_cons]
    rcases hf : st.1.find? (fun k => bothMatch tt ta s k) with _ | k
    · have hstep : rssStep tt ta st s = (st.1 ++ [s], st.2) := by
        unfold rssStep; rw [hf]
      rw [hstep, ih (st.1 ++ [s], st.2)]
      simp only [List.length_append, List.length_cons, List.length_nil]
      omega
    · have hstep : rssStep tt ta st s = (st.1, st.2 ++ [mkRemoved s k]) := by
        unfold rssStep; rw [hf]
      rw [hstep, ih (st.1, st.2 ++ [mkRemoved s k])]
      simp only [List.length_append, List.length_cons, List.length_nil]
      omega

/-- The kept entries together with the removed originals are a
permutation of the processed input (appended to the initial state). -/
theorem rss_fold_perm (tt ta : ℚ) :
    ∀ (l : List Song) (st : List Song × List RemovedRec),
      ((l.foldl (rssStep tt ta) st).1 ++
          ((l.foldl (rssStep tt ta) st).2.map RemovedRec.cancion)).Perm
        ((st.1 ++ st.2.map RemovedRec.cancion) ++ l) := by
  intro l
  induction l with
  | nil => intro st; simp
  | cons s t ih =>
    intro st
    rw [List.foldl_cons]
    rcases hf : st.1.find? (fun k => bothMatch tt ta s k) with _ | k
    · have hstep : rssStep tt ta st s = (st.1 ++ [s], st.2) := by
        unfold rssStep; rw [hf]
      rw [hstep]
      refine (ih (st.1 ++ [s], st.2)).trans ?_
      have e1 : ((st.1 ++ [s], st.2).1 ++ (st.1 ++ [s], st.2).2.map RemovedRec.cancion) ++ t =
          st.1 ++ (([s] ++ st.2.map RemovedRec.cancion) ++ t) := by
        simp [List.append_assoc]
      have e2 : (st.1 ++ st.2.map RemovedRec.cancion) ++ s :: t =
          st.1 ++ ((st.2.map RemovedRec.cancion ++ [s]) ++ t) := by
        simp [List.append_assoc]
      rw [e1, e2]
      exact List.Perm.append_left st.1
        (List.Perm.append_right t List.perm_append_comm)
    · have hstep : rssStep tt ta st s = (st.1, st.2 ++ [mkRemoved s k]) := by
        unfold rssStep; rw [hf]
      rw [hstep]
      refine (ih (st.1, st.2 ++ [mkRemoved s k])).trans ?_
      have e1 : ((st.1, st.2 ++ [mkRemoved s k]).1 ++
          (st.1, st.2 ++ [mkRemoved s k]).2.map RemovedRec.cancion) ++ t =
          (st.1 ++ st.2.map RemovedRec.cancion) ++ s :: t := by
        simp [mkRemoved, List.append_assoc]
      rw [e1]

end RDY

namespace RDY

/-- Complete characterization of the evidence records produced by the
fold: each one (beyond the initial state) matches on both dimensions,
records the two rounded similarity scores, and its kept entry is the
first element of the final kept list that matches, everything before it
failing the test. -/
theorem rss_fold_removed (tt ta : ℚ) :
    ∀ (l : List Song) (st : List Song × List RemovedRec),
      ∀ rec ∈ (l.foldl (rssStep tt ta) st).2, rec ∈ st.2 ∨
        (bothMatch tt ta rec.cancion rec.similar_a = true ∧
         rec.similaridad_titulo =
           round2 (calculate_similarity rec.cancion.titulo rec.similar_a.titulo) ∧
         rec.similaridad_artista =
           round2 (calculate_similarity rec.cancion.artista rec.similar_a.artista) ∧
         ∃ u v, (l.foldl (rssStep tt ta) st).1 = u ++ rec.similar_a :: v ∧
           ∀ x ∈ u, bothMatch tt ta rec.cancion x = false) := by
  intro l
  induction l with
  | nil =>
    intro st rec hrec
    exact Or.inl hrec
  | cons s t ih =>
    intro st rec hrec
    rw [List.foldl_cons] at hrec ⊢
    rcases hf : st.1.find? (fun k => bothMatch tt ta s k) with _ | k
    · have hstep : rssStep tt ta st s = (st.1 ++ [s], st.2) := by
        unfold rssStep; rw [hf]
      rw [hstep] at hrec ⊢
      exact ih (st.1 ++ [s], st.2) rec hrec
    · have hstep : rssStep tt ta st s = (st.1, st.2 ++ [mkRemoved s k]) := by
        unfold rssStep; rw [hf]
      rw [hstep] at hrec ⊢
      rcases ih (st.1, st.2 ++ [mkRemoved s k]) rec hrec with hold | hnew
      · rcases List.mem_append.1 hold with hl | hr
        · exact Or.inl hl
        · right
          have hrec_eq : rec = mkRemoved s k := List.mem_singleton.1 hr
          subst hrec_eq
          rcases find?_eq_some_split hf with ⟨u, v, hsplit, hfail, hmatch⟩
          rcases rss_fold_kept_append tt ta t (st.1, st.2 ++ [mkRemoved s k]) with ⟨d, hd, _⟩
          refine ⟨hmatch, rfl, rfl, u, v ++ d, ?_, ?_⟩
          · rw [hd]
            show st.1 ++ d = u ++ (mkRemoved s k).similar_a :: (v ++ d)
            rw [hsplit]
            simp [mkRemoved]
          · intro x hx
            exact hfail x hx
      · exact Or.inr hnew

/-- The kept list stays internally duplicate-free: a later kept entry
never matches an earlier kept entry on both dimensions. -/
theorem rss_fold_pairwise (tt ta : ℚ) :
    ∀ (l : List Song) (st : List Song × List RemovedRec),
      st.1.Pairwise (fun y x => bothMatch tt ta x y = false) →
      (l.foldl (rssStep tt ta) st).1.Pairwise (fun y x => bothMatch tt ta x y = false) := by
  intro l
  induction l with
  | nil => intro st h; exact h
  | cons s t ih =>
    intro st h
    rw [List.foldl_cons]
    rcases hf : st.1.find? (fun k => bothMatch tt ta s k) with _ | k
    · have hstep : rssStep tt ta st s = (st.1 ++ [s], st.2) := by
        unfold rssStep; rw [hf]
      rw [hstep]
      refine ih (st.1 ++ [s], st.2) ?_
      refine List.pairwise_append.2 ⟨h, List.pairwise_singleton _ _, ?_⟩
      intro y hy x hx
      rw [List.mem_singleton.1 hx]
      simpa using List.find?_eq_none.1 hf y hy
    · have hstep : rssStep tt ta st s = (st.1, st.2 ++ [mkRemoved s k]) := by
        unfold rssStep; rw [hf]
      rw [hstep]
      exact ih (st.1, st.2 ++ [mkRemoved s k]) h

/-- A run over a list whose entries never match an earlier entry (nor any
entry of the initial kept list) keeps everything and removes nothing. -/
theorem rss_fold_no_dup (tt ta : ℚ) :
    ∀ (l : List Song) (st : List Song × List RemovedRec),
      l.Pairwise (fun y x => bothMatch tt ta x y = false) →
      (∀ x ∈ l, ∀ y ∈ st.1, bothMatch tt ta x y = false) →
      l.foldl (rssStep tt ta) st = (st.1 ++ l, st.2) := by
  intro l
  induction l with
  | nil => intro st _ _; simp
  | cons s t ih =>
    intro st hpair hcross
    rw [List.foldl_cons]
    have hf : st.1.find? (fun k => bothMatch tt ta s k) = none :=
      List.find?_eq_none.2 fun y hy => by
        simpa using hcross s (List.mem_cons_self s t) y hy
    have hstep : rssStep tt ta st s = (st.1 ++ [s], st.2) := by
      unfold rssStep; rw [hf]
    rw [hstep]
    have hpair_t := (List.pairwise_cons.1 hpair).2
    have hhead := (List.pairwise_cons.1 hpair).1
    rw [ih (st.1 ++ [s], st.2) hpair_t ?_]
    · simp
    · intro x hx y hy
      rcases List.mem_append.1 hy with hy1 | hy2
      · exact hcross x (List.mem_cons_of_mem s hx) y hy1
      · rw [List.mem_singleton.1 hy2]
        exact hhead x hx

/-- An input entry that fails the duplicate test against every kept
entry other than itself ends up in the kept list. -/
theorem rss_fold_kept_of_no_match (tt ta : ℚ) :
    ∀ (l : List Song) (st : List Song × List RemovedRec) (s : Song), s ∈ l →
      (∀ k ∈ (l.foldl (rssStep tt ta) st).1, k ≠ s → bothMatch tt ta s k = false) →
      s ∈ (l.foldl (rssStep tt ta) st).1 := by
  intro l
  induction l with
  | nil => intro st s hs; exact absurd hs (List.not_mem_nil s)
  | cons x t ih =>
    intro st s hs hyp
    rw [List.foldl_cons] at hyp ⊢
    rcases List.mem_cons.1 hs with rfl | hst
    · rcases hf : st.1.find? (fun k => bothMatch tt ta s k) with _ | k
      · have hstep : rssStep tt ta st s = (st.1 ++ [s], st.2) := by
          unfold rssStep; rw [hf]
        rw [hstep] at hyp ⊢
        rcases rss_fold_kept_append tt ta t (st.1 ++ [s], st.2) with ⟨d, hd, _⟩
        rw [hd]
        exact List.mem_append_left d (List.mem_append_right st.1 (List.mem_singleton_self s))
      · have hstep : rssStep tt ta st s = (st.1, st.2 ++ [mkRemoved s k]) := by
          unfold rssStep; rw [hf]
        rw [hstep] at hyp ⊢
        have hmatch : bothMatch tt ta s k = true := List.find?_some hf
        have hk_in : k ∈ (t.foldl (rssStep tt ta) (st.1, st.2 ++ [mkRemoved s k])).1 := by
          rcases rss_fold_kept_append tt ta t (st.1, st.2 ++ [mkRemoved s k]) with ⟨d, hd, _⟩
          rw [hd]
          exact List.mem_append_left d (List.mem_of_find?_eq_some hf)
        by_cases hks : k = s
        · subst hks; exact hk_in
        · have := hyp k hk_in hks
          rw [hmatch] at this
          exact absurd this (by simp)
    · exact ih (rssStep tt ta st x) s hst hyp

end RDY

namespace RDY

/-- Concrete entries used by the witnesses. -/
def songA : Song :=
  { id := "a", playlistItemId := "pa", titulo := "imagine", artista := "john lennon" }

/-- Concrete entry whose title matches songA but whose artist does not. -/
def songB : Song :=
  { id := "b", playlistItemId := "pb", titulo := "imagine", artista := "various artists" }

/-- C1: for every input list of songs and every pair of thresholds, the
partition returned by remove_similar_songs covers the input exactly:
len(kept) + len(removed) = len(input); kept together with the removed
originals is a permutation of the input, so each input occurrence lands
in exactly one of kept or removed (the per-entry counts add up and no
occurrence is on both sides); and kept preserves the first-seen input
order, being a sublist of the input. -/
theorem c1_partition_exact (songs : List Song) (tt ta : ℚ) :
    (remove_similar_songs songs tt ta).1.length +
      (remove_similar_songs songs tt ta).2.length = songs.length ∧
    ((remove_similar_songs songs tt ta).1 ++
      ((remove_similar_songs songs tt ta).2.map RemovedRec.cancion)).Perm songs ∧
    (∀ s : Song, (remove_similar_songs songs tt ta).1.count s +
      ((remove_similar_songs songs tt ta).2.map RemovedRec.cancion).count s =
        songs.count s) ∧
    List.Sublist (remove_similar_songs songs tt ta).1 songs := by
  unfold remove_similar_songs
  have hlen := rss_fold_length tt ta songs ([], [])
  have hperm := rss_fold_perm tt ta songs ([], [])
  have happ := rss_fold_kept_append tt ta songs ([], [])
  simp only [List.length_nil, List.map_nil, List.append_nil, List.nil_append] at hlen hperm
  refine ⟨by omega, hperm, ?_, ?_⟩
  · intro s
    have := hperm.count_eq s
    rw [List.count_append] at this
    exact this
  · rcases happ with ⟨d, hd, hsub⟩
    rw [hd]
    simpa using hsub

/-- C2: an entry is marked duplicate only when both dimensions reach
their thresholds (every evidence record satisfies both inequalities for
the unrounded similarities); in particular an entry whose title
similarity reaches the title threshold against every kept entry but
whose artist similarity stays below the artist threshold (other than
against itself) is kept, not removed. -/
theorem c2_dual_threshold (songs : List Song) (tt ta : ℚ) :
    (∀ rec ∈ (remove_similar_songs songs tt ta).2,
       tt ≤ calculate_similarity rec.cancion.titulo rec.similar_a.titulo ∧
       ta ≤ calculate_similarity rec.cancion.artista rec.similar_a.artista) ∧
    (∀ s ∈ songs,
       (∀ k ∈ (remove_similar_songs songs tt ta).1, k ≠ s →
          tt ≤ calculate_similarity s.titulo k.titulo ∧
          calculate_similarity s.artista k.artista < ta) →
       s ∈ (remove_similar_songs songs tt ta).1) := by
  constructor
  · intro rec hrec
    rcases rss_fold_removed tt ta songs ([], []) rec hrec with h0 | ⟨hm, _, _, _⟩
    · exact absurd h0 (List.not_mem_nil rec)
    · unfold bothMatch at hm
      rw [Bool.and_eq_true, decide_eq_true_eq, decide_eq_true_eq] at hm
      exact hm
  · intro s hs hyp
    refine rss_fold_kept_of_no_match tt ta songs ([], []) s hs ?_
    intro k hk hks
    have h2 := (hyp k hk hks).2
    unfold bothMatch
    rw [Bool.and_eq_false_iff]
    right
    rw [decide_eq_false_iff_not]
    exact not_le.2 h2

/-- C3: first match wins.  Every evidence record matches its kept entry
on both dimensions, its recorded scores are the rounded similarities,
and the kept list splits as u ++ keptEntry :: v where every entry of u
(the kept entries scanned before the match, in insertion order) fails
the duplicate test: the reported entry is the earliest kept match, and
scanning stopped there, regardless of any later higher-scoring entry. -/
theorem c3_first_match_wins (songs : List Song) (tt ta : ℚ) :
    ∀ rec ∈ (remove_similar_songs songs tt ta).2,
      bothMatch tt ta rec.cancion rec.similar_a = true ∧
      rec.similaridad_titulo =
        round2 (calculate_similarity rec.cancion.titulo rec.similar_a.titulo) ∧
      rec.similaridad_artista =
        round2 (calculate_similarity rec.cancion.artista rec.similar_a.artista) ∧
      ∃ u v, (remove_similar_songs songs tt ta).1 = u ++ rec.similar_a :: v ∧
        ∀ x ∈ u, bothMatch tt ta rec.cancion x = false := by
  intro rec hrec
  rcases rss_fold_removed tt ta songs ([], []) rec hrec with h0 | hprops
  · exact absurd h0 (List.not_mem_nil rec)
  · exact hprops

/-- C10: every evidence record justifies the removal by an entry of the
returned kept list: its similar_a is a member of kept, so a removed
entry never serves as the kept entry of another removal. -/
theorem c10_removed_justified (songs : List Song) (tt ta : ℚ) :
    ∀ rec ∈ (remove_similar_songs songs tt ta).2,
      rec.similar_a ∈ (remove_similar_songs songs tt ta).1 := by
  intro rec hrec
  rcases rss_fold_removed tt ta songs ([], []) rec hrec with h0 | ⟨_, _, _, u, v, hsplit, _⟩
  · exact absurd h0 (List.not_mem_nil rec)
  · show rec.similar_a ∈ (List.foldl (rssStep tt ta) ([], []) songs).1
    rw [hsplit]
    exact List.mem_append_right u (List.mem_cons_self _ v)

/-- C9: remove_similar_songs is idempotent: running it again on the kept
output with the same thresholds keeps everything and removes nothing. -/
theorem c9_idempotent (songs : List Song) (tt ta : ℚ) :
    remove_similar_songs (remove_similar_songs songs tt ta).1 tt ta =
      ((remove_similar_songs songs tt ta).1, []) := by
  have hpw := rss_fold_pairwise tt ta songs ([], []) List.Pairwise.nil
  show (remove_similar_songs songs tt ta).1.foldl (rssStep tt ta) ([], []) = _
  rw [rss_fold_no_dup tt ta (remove_similar_songs songs tt ta).1 ([], []) hpw
    (fun x _ y hy => absurd hy (List.not_mem_nil y))]
  simp

set_option maxRecDepth 100000 in
/-- Witness for C2 at a concrete run: equal titles, distant artists, the
second entry is kept. -/
theorem c2_witness :
    songB ∈ (remove_similar_songs [songA, songB] (mkRat 8 10) (mkRat 9 10)).1 :=
  (c2_dual_threshold [songA, songB] (mkRat 8 10) (mkRat 9 10)).2 songB (by decide) (by decide)

set_option maxRecDepth 100000 in
/-- Witness for C3 at a concrete run with one removal. -/
theorem c3_witness :
    ∃ u v, (remove_similar_songs [songA, songA] (mkRat 8 10) (mkRat 9 10)).1 =
        u ++ (mkRemoved songA songA).similar_a :: v ∧
      ∀ x ∈ u, bothMatch (mkRat 8 10) (mkRat 9 10) (mkRemoved songA songA).cancion x = false :=
  (c3_first_match_wins [songA, songA] (mkRat 8 10) (mkRat 9 10) (mkRemoved songA songA)
    (by decide)).2.2.2

set_option maxRecDepth 100000 in
/-- Witness for C10 at a concrete run with one removal. -/
theorem c10_witness :
    (mkRemoved songA songA).similar_a ∈
      (remove_similar_songs [songA, songA] (mkRat 8 10) (mkRat 9 10)).1 :=
  c10_removed_justified [songA, songA] (mkRat 8 10) (mkRat 9 10) (mkRemoved songA songA)
    (by decide)

end RDY

namespace RDY

set_option maxRecDepth 100000 in
/-- C5 counterexample: calculate_similarity is not symmetric.  On the
concrete pair below the greedy longest-block recursion of difflib picks
different blocks depending on the argument order (mm earliest in the
first string against nn earliest in the other), leaving different
leftovers: the two orders give 1/2 and 1/3. -/
theorem c5_counterexample :
    calculate_similarity "mmxznn" "nnqmmz" ≠ calculate_similarity "nnqmmz" "mmxznn" := by
  decide

/-- C5 amended: symmetry does not hold for every pair of strings; it
holds when the two lowered strings coincide, where both orders give 1. -/
theorem c5_symm_of_lower_eq (s t : String)
    (h : s.data.map Char.toLower = t.data.map Char.toLower) :
    calculate_similarity s t = calculate_similarity t s := by
  rw [calculate_similarity_of_lower_eq s t h, calculate_similarity_of_lower_eq t s h.symm]

set_option maxRecDepth 100000 in
/-- Witness for the amended C5 at a concrete case-insensitively equal
pair. -/
theorem c5_witness : calculate_similarity "Ab" "aB" = calculate_similarity "aB" "Ab" :=
  c5_symm_of_lower_eq "Ab" "aB" (by decide)

set_option maxRecDepth 100000 in
/-- C6: for every pair of strings the similarity lies in [0, 1]; it is
1 on every pair of equal strings; and it is case-insensitive, scoring 1
on strings equal up to letter case such as ABC and abc. -/
theorem c6_similarity_contract :
    (∀ s t : String, 0 ≤ calculate_similarity s t ∧ calculate_similarity s t ≤ 1) ∧
    (∀ s : String, calculate_similarity s s = 1) ∧
    calculate_similarity "ABC" "abc" = 1 :=
  ⟨fun s t => ⟨calculate_similarity_nonneg s t, calculate_similarity_le_one s t⟩,
   calculate_similarity_self,
   calculate_similarity_of_lower_eq "ABC" "abc" (by decide)⟩

end RDY

namespace RDY

/-- One YouTube search result as read by add_songs_to_shazam_playlist
(src/shazam_import.py lines 295-307): video id, video title, channel
title. -/
structure Candidate where
  videoId : String
  videoTitle : String
  channelTitle : String
deriving DecidableEq

/-- Arithmetic mean of two rationals, written as one explicit fraction
so that it evaluates by kernel reduction; ratMean2_eq restates it as
(x + y) / 2. -/
def ratMean2 (x y : ℚ) : ℚ :=
  mkRat (x.num * (y.den : ℤ) + y.num * (x.den : ℤ)) (2 * (x.den * y.den))

/-- ratMean2 is the arithmetic mean. -/
theorem ratMean2_eq (x y : ℚ) : ratMean2 x y = (x + y) / 2 := by
  unfold ratMean2
  rw [Rat.mkRat_eq_divInt, Rat.divInt_eq_div]
  have hx : (x.den : ℚ) ≠ 0 := by exact_mod_cast x.den_nz
  have hy : (y.den : ℚ) ≠ 0 := by exact_mod_cast y.den_nz
  have ex : (x.num : ℚ) = x * (x.den : ℚ) := (div_eq_iff hx).1 (Rat.num_div_den x)
  have ey : (y.num : ℚ) = y * (y.den : ℚ) := (div_eq_iff hy).1 (Rat.num_div_den y)
  field_simp
  rw [ex, ey]
  ring

/-- Score of one search candidate (src/shazam_import.py lines 298-300):
the mean of calculate_similarity(title, video_title) and
calculate_similarity(artist, channel_title). -/
def candidateScore (title artist : String) (c : Candidate) : ℚ :=
  ratMean2 (calculate_similarity title c.videoTitle)
    (calculate_similarity artist c.channelTitle)

/-- One step of the best-candidate loop (src/shazam_import.py lines
302-304): replace the best only when the score is strictly higher. -/
def scanStepC (title artist : String) (st : ℚ × Option Candidate)
    (c : Candidate) : ℚ × Option Candidate :=
  let score := candidateScore title artist c
  if st.1 < score then (score, some c) else st

/-- The loop over the search results, started from best_score = 0 and
best_video = None (src/shazam_import.py lines 293-304). -/
def scanCandidates (title artist : String) (items : List Candidate) :
    ℚ × Option Candidate :=
  items.foldl (scanStepC title artist) (0, none)

/-- The selection made at src/shazam_import.py line 306: a match is used
exactly when best_video is set and best_score > 0.5. -/
def bestMatch (title artist : String) (items : List Candidate) :
    Option Candidate :=
  match scanCandidates title artist items with
  | (bs, some v) => if mkRat 1 2 < bs then some v else none
  | (_, none) => none

/-- Best score over the list, folded from 0 like the loop. -/
def maxScore (title artist : String) (items : List Candidate) : ℚ :=
  (items.map (candidateScore title artist)).foldl max 0

/-- Candidate scores are nonnegative. -/
theorem candidateScore_nonneg (title artist : String) (c : Candidate) :
    0 ≤ candidateScore title artist c := by
  unfold candidateScore
  rw [ratMean2_eq]
  have h1 := calculate_similarity_nonneg title c.videoTitle
  have h2 := calculate_similarity_nonneg artist c.channelTitle
  positivity

/-- The first component of the scan is the running maximum of the
scores. -/
theorem scanC_fst (title artist : String) :
    ∀ (items : List Candidate) (st : ℚ × Option Candidate),
      (items.foldl (scanStepC title artist) st).1 =
        (items.map (candidateScore title artist)).foldl max st.1 := by
  intro items
  induction items with
  | nil => intro st; rfl
  | cons c t ih =>
    intro st
    rw [List.foldl_cons, List.map_cons, List.foldl_cons, ih]
    have hstep : (scanStepC title artist st c).1 = max st.1 (candidateScore title artist c) := by
      unfold scanStepC
      simp only
      split
      · rename_i h
        exact (max_eq_right (le_of_lt h)).symm
      · rename_i h
        exact (max_eq_left (not_lt.1 h)).symm
    rw [hstep]

/-- A fold of max stays below any common upper bound. -/
theorem foldl_max_le (c : ℚ) :
    ∀ (l : List ℚ) (b : ℚ), (∀ x ∈ l, x ≤ c) → b ≤ c → l.foldl max b ≤ c := by
  intro l
  induction l with
  | nil => intro b _ hb; exact hb
  | cons x t ih =>
    intro b hall hb
    rw [List.foldl_cons]
    exact ih (max b x) (fun y hy => hall y (List.mem_cons_of_mem x hy))
      (max_le hb (hall x (List.mem_cons_self x t)))

/-- The strict-improvement candidate fold either keeps its initial state
(no candidate beats it) or returns the first candidate whose score is
strictly above every earlier score and at least every later score. -/
theorem scanC_spec (title artist : String) :
    ∀ (items : List Candidate) (st : ℚ × Option Candidate),
      (items.foldl (scanStepC title artist) st = st ∧
        ∀ c ∈ items, candidateScore title artist c ≤ st.1) ∨
      (∃ u c v, items = u ++ c :: v ∧
        items.foldl (scanStepC title artist) st = (candidateScore title artist c, some c) ∧
        st.1 < candidateScore title artist c ∧
        (∀ x ∈ u, candidateScore title artist x < candidateScore title artist c) ∧
        (∀ x ∈ v, candidateScore title artist x ≤ candidateScore title artist c)) := by
  intro items
  induction items with
  | nil => intro st; left; exact ⟨rfl, by simp⟩
  | cons q t ih =>
    intro st
    rw [List.foldl_cons]
    by_cases himp : st.1 < candidateScore title artist q
    · have hq : scanStepC title artist st q = (candidateScore title artist q, some q) := by
        unfold scanStepC; rw [if_pos himp]
      rw [hq]
      rcases ih (candidateScore title artist q, some q) with ⟨heq, hall⟩ | ⟨u, c, v, hsp, heq, hlt, hu, hv⟩
      · right
        exact ⟨[], q, t, rfl, heq, himp, by simp, hall⟩
      · right
        refine ⟨q :: u, c, v, by simp [hsp], heq, lt_trans himp hlt, ?_, hv⟩
        intro x hx
        rcases List.mem_cons.1 hx with rfl | hx2
        · exact hlt
        · exact hu x hx2
    · have hq : scanStepC title artist st q = st := by
        unfold scanStepC; rw [if_neg himp]
      rw [hq]
      rcases ih st with ⟨heq, hall⟩ | ⟨u, c, v, hsp, heq, hlt, hu, hv⟩
      · left
        refine ⟨heq, ?_⟩
        intro x hx
        rcases List.mem_cons.1 hx with rfl | hx2
        · exact not_lt.1 himp
        · exact hall x hx2
      · right
        refine ⟨q :: u, c, v, by simp [hsp], heq, hlt, ?_, hv⟩
        intro x hx
        rcases List.mem_cons.1 hx with rfl | hx2
        · exact lt_of_le_of_lt (not_lt.1 himp) hlt
        · exact hu x hx2

/-- C4: the selector scores every candidate as the arithmetic mean of
the title and artist/channel similarities; it returns none exactly when
the candidate list is empty or the best score does not strictly exceed
the acceptance threshold 1/2; and any returned candidate is the first
strict maximizer of the score (first-encountered wins on exact ties)
with score strictly above 1/2. -/
theorem c4_match_selector (title artist : String) (items : List Candidate) :
    (∀ c : Candidate, candidateScore title artist c =
      (calculate_similarity title c.videoTitle +
        calculate_similarity artist c.channelTitle) / 2) ∧
    (bestMatch title artist items = none ↔
      items = [] ∨ maxScore title artist items ≤ mkRat 1 2) ∧
    (∀ c : Candidate, bestMatch title artist items = some c →
      mkRat 1 2 < candidateScore title artist c ∧
      ∃ u v, items = u ++ c :: v ∧
        (∀ x ∈ u, candidateScore title artist x < candidateScore title artist c) ∧
        (∀ x ∈ v, candidateScore title artist x ≤ candidateScore title artist c)) := by
  have hms : maxScore title artist items = (scanCandidates title artist items).1 :=
    (scanC_fst title artist items (0, none)).symm
  have hhalf : (0 : ℚ) ≤ mkRat 1 2 := by decide
  rcases scanC_spec title artist items (0, none) with ⟨heq, hall⟩ | ⟨u, c2, v, hsp, heq, hlt, hu, hv⟩
  · have hbm : bestMatch title artist items = none := by
      unfold bestMatch scanCandidates
      rw [heq]
    have h0 : maxScore title artist items = 0 := by
      rw [hms]
      show (items.foldl (scanStepC title artist) (0, none)).1 = 0
      rw [heq]
    refine ⟨fun c => ratMean2_eq _ _, ?_, ?_⟩
    · constructor
      · intro _
        right
        rw [h0]
        exact hhalf
      · intro _
        exact hbm
    · intro c hc
      rw [hbm] at hc
      exact absurd hc (by simp)
  · have hbm : bestMatch title artist items =
        (if mkRat 1 2 < candidateScore title artist c2 then some c2 else none) := by
      unfold bestMatch scanCandidates
      rw [heq]
    have hmax : maxScore title artist items = candidateScore title artist c2 := by
      rw [hms]
      show (items.foldl (scanStepC title artist) (0, none)).1 = _
      rw [heq]
    refine ⟨fun c => ratMean2_eq _ _, ?_, ?_⟩
    · constructor
      · intro hn
        rw [hbm] at hn
        by_cases hgt : mkRat 1 2 < candidateScore title artist c2
        · rw [if_pos hgt] at hn
          exact absurd hn (by simp)
        · right
          rw [hmax]
          exact not_lt.1 hgt
      · intro hr
        rw [hbm]
        rcases hr with hempty | hle
        · rw [hempty] at hsp
          exact absurd hsp (by simp)
        · rw [hmax] at hle
          rw [if_neg (not_lt.2 hle)]
    · intro c hc
      rw [hbm] at hc
      by_cases hgt : mkRat 1 2 < candidateScore title artist c2
      · rw [if_pos hgt] at hc
        injection hc with hc
        subst hc
        exact ⟨hgt, u, v, hsp, hu, hv⟩
      · rw [if_neg hgt] at hc
        exact absurd hc (by simp)

end RDY

namespace RDY

/-- Concrete search results for the C4 witness. -/
def candX : Candidate :=
  { videoId := "v1", videoTitle := "zzz", channelTitle := "qqq" }

/-- A candidate that matches the query exactly. -/
def candY : Candidate :=
  { videoId := "v2", videoTitle := "song x", channelTitle := "band y" }

set_option maxRecDepth 100000 in
/-- Witness for C4 at a concrete search: the exact match is selected,
the weaker candidate scanned before it scores strictly lower. -/
theorem c4_witness :
    mkRat 1 2 < candidateScore "song x" "band y" candY ∧
    ∃ u v, [candX, candY] = u ++ candY :: v ∧
      (∀ x ∈ u, candidateScore "song x" "band y" x <
        candidateScore "song x" "band y" candY) ∧
      (∀ x ∈ v, candidateScore "song x" "band y" x ≤
        candidateScore "song x" "band y" candY) :=
  (c4_match_selector "song x" "band y" [candX, candY]).2.2 candY (by decide)

end RDY

namespace RDY

/-- Python str.strip(): drop whitespace from both ends. -/
def stripChars (l : List Char) : List Char :=
  ((l.dropWhile Char.isWhitespace).reverse.dropWhile Char.isWhitespace).reverse

/-- Python str.lower(), per character. -/
def lowerChars (l : List Char) : List Char := l.map Char.toLower

/-- The header test of src/shazam_import.py line 47:
title.strip().lower() == "title" and artist.strip().lower() == "artist". -/
def isHeaderPair (t a : String) : Bool :=
  decide (lowerChars (stripChars t.data) = "title".data) &&
  decide (lowerChars (stripChars a.data) = "artist".data)

/-- The row filter of import_songs_from_csv (src/shazam_import.py lines
41-47): a row contributes (row[2], row[3]) when it has at least 4
fields, both values are nonempty, and the pair is not a header row. -/
def eligiblePair (row : List String) : Option (String × String) :=
  if 4 ≤ row.length then
    let t := row.getD 2 ""
    let a := row.getD 3 ""
    if t ≠ "" ∧ a ≠ "" ∧ ¬ isHeaderPair t a = true then some (t, a) else none
  else none

/-- One iteration of the reader loop (src/shazam_import.py lines 41-51):
keep the pair when it is new, remember it in seen. -/
def importStep (st : List (String × String) × List (String × String))
    (row : List String) : List (String × String) × List (String × String) :=
  match eligiblePair row with
  | none => st
  | some key => if key ∈ st.2 then st else (st.1 ++ [key], key :: st.2)

/-- src/shazam_import.py lines 16-53: the parsing loop of the function
named import_songs_from_csv over the rows of the file; next(reader,
None) drops the first row, then each remaining row is filtered and
deduplicated against the seen set. -/
def import_songs_from_csv (rows : List (List String)) : List (String × String) :=
  ((rows.drop 1).foldl importStep ([], [])).1

/-- Modelled from the claim wording: keep the first occurrence of every
element, drop the later duplicates. -/
def keepFirstSpec {β : Type} [DecidableEq β] : List β → List β
  | [] => []
  | x :: l => x :: keepFirstSpec (l.filter (fun y => y ≠ x))
termination_by l => l.length
decreasing_by
  simp only [List.length_cons]
  exact Nat.lt_succ_of_le (List.length_filter_le _ l)

/-- keepFirstSpec selects a subsequence. -/
theorem keepFirstSpec_sublist {β : Type} [DecidableEq β] :
    ∀ (l : List β), List.Sublist (keepFirstSpec l) l
  | [] => by
    rw [keepFirstSpec]
  | x :: l => by
    rw [keepFirstSpec]
    exact List.Sublist.cons₂ x
      ((keepFirstSpec_sublist _).trans (List.filter_sublist l))
termination_by l => l.length
decreasing_by
  simp only [List.length_cons]
  exact Nat.lt_succ_of_le (List.length_filter_le _ l)

/-- keepFirstSpec has no duplicates. -/
theorem keepFirstSpec_nodup {β : Type} [DecidableEq β] :
    ∀ (l : List β), (keepFirstSpec l).Nodup
  | [] => by
    rw [keepFirstSpec]
    exact List.nodup_nil
  | x :: l => by
    rw [keepFirstSpec]
    refine List.nodup_cons.2 ⟨?_, keepFirstSpec_nodup _⟩
    intro hmem
    have h2 := (keepFirstSpec_sublist _).subset hmem
    have h3 := List.of_mem_filter h2
    simp at h3
termination_by l => l.length
decreasing_by
  simp only [List.length_cons]
  exact Nat.lt_succ_of_le (List.length_filter_le _ l)

/-- The reader loop computes first-seen deduplication of the eligible
pairs: fold form against filter form, for any starting state. -/
theorem import_fold_spec :
    ∀ (rows : List (List String)) (acc seen : List (String × String)),
      (rows.foldl importStep (acc, seen)).1 =
        acc ++ keepFirstSpec ((rows.filterMap eligiblePair).filter
          (fun x => x ∉ seen)) := by
  intro rows
  induction rows with
  | nil =>
    intro acc seen
    rw [List.filterMap_nil, List.filter_nil, keepFirstSpec]
    simp
  | cons row t ih =>
    intro acc seen
    rw [List.foldl_cons, List.filterMap_cons]
    rcases he : eligiblePair row with _ | key
    · have hstep : importStep (acc, seen) row = (acc, seen) := by
        unfold importStep; rw [he]
      rw [hstep]
      exact ih acc seen
    · by_cases hk : key ∈ seen
      · have hstep : importStep (acc, seen) row = (acc, seen) := by
          unfold importStep; rw [he]; simp only; rw [if_pos hk]
        rw [hstep, List.filter_cons]
        rw [if_neg (by simpa using hk)]
        exact ih acc seen
      · have hstep : importStep (acc, seen) row = (acc ++ [key], key :: seen) := by
          unfold importStep; rw [he]; simp only; rw [if_neg hk]
        rw [hstep, List.filter_cons, if_pos (by simpa using hk)]
        rw [ih (acc ++ [key]) (key :: seen), keepFirstSpec]
        have hff : ((t.filterMap eligiblePair).filter (fun x => x ∉ seen)).filter
            (fun y => y ≠ key) =
            (t.filterMap eligiblePair).filter (fun x => x ∉ key :: seen) := by
          rw [List.filter_filter]
          apply List.filter_congr
          intro x _
          by_cases h1 : x ∈ seen <;> by_cases h2 : x = key <;>
            simp [h1, h2, List.mem_cons]
        rw [hff]
        simp [List.append_assoc]

/-- The parser returns the first-seen deduplication of the eligible
pairs of the rows after the header row. -/
theorem import_songs_eq (rows : List (List String)) :
    import_songs_from_csv rows =
      keepFirstSpec ((rows.drop 1).filterMap eligiblePair) := by
  unfold import_songs_from_csv
  rw [import_fold_spec (rows.drop 1) [] []]
  rw [List.filter_eq_self.2 (fun a _ => by simp)]
  rw [List.nil_append]

/-- Whitespace characters are fixed points of toLower. -/
theorem ws_toLower_fixed (c : Char) (h : Char.isWhitespace c = true) :
    Char.toLower c = c := by
  unfold Char.isWhitespace at h
  rw [Bool.or_eq_true, Bool.or_eq_true, Bool.or_eq_true] at h
  rcases h with ((h | h) | h) | h <;>
    · rw [decide_eq_true_eq] at h
      subst h
      decide

/-- If the lowering of a character list is a whitespace-free list, the
list itself is whitespace-free. -/
theorem nonws_of_lower_eq (w : List Char) (hw : ∀ x ∈ w, Char.isWhitespace x = false)
    (l : List Char) (h : lowerChars l = w) :
    ∀ c ∈ l, Char.isWhitespace c = false := by
  intro c hc
  rcases hb : Char.isWhitespace c with _ | _
  · rfl
  · have hmem : Char.toLower c ∈ w := by
      rw [← h]
      exact List.mem_map_of_mem Char.toLower hc
    rw [ws_toLower_fixed c hb] at hmem
    rw [← hw c hmem]
    rw [hb]

/-- dropWhile is the identity on lists whose elements all fail the
test. -/
theorem dropWhile_eq_self_of (p : Char → Bool) :
    ∀ (l : List Char), (∀ c ∈ l, p c = false) → l.dropWhile p = l := by
  intro l h
  cases l with
  | nil => rfl
  | cons c t =>
    rw [List.dropWhile_cons, h c (List.mem_cons_self c t)]
    simp

/-- strip is the identity on whitespace-free lists. -/
theorem stripChars_eq_self (l : List Char)
    (h : ∀ c ∈ l, Char.isWhitespace c = false) : stripChars l = l := by
  unfold stripChars
  rw [dropWhile_eq_self_of Char.isWhitespace l h]
  rw [dropWhile_eq_self_of Char.isWhitespace l.reverse
    (fun c hc => h c (List.mem_reverse.1 hc))]
  exact List.reverse_reverse l

end RDY

namespace RDY

/-- C7: import-file parsing returns the eligible (title, artist) pairs
deduplicated by exact case-sensitive equality, each unique pair exactly
once (Nodup) in first-seen order (a subsequence of the eligible pairs);
rows with fewer than 4 fields contribute nothing; and header rows whose
title and artist fields equal title and artist case-insensitively
contribute nothing. -/
theorem c7_import_parse :
    (∀ rows : List (List String),
      import_songs_from_csv rows =
        keepFirstSpec ((rows.drop 1).filterMap eligiblePair) ∧
      (import_songs_from_csv rows).Nodup ∧
      List.Sublist (import_songs_from_csv rows)
        ((rows.drop 1).filterMap eligiblePair)) ∧
    (∀ row : List String, row.length < 4 → eligiblePair row = none) ∧
    (∀ row : List String,
      lowerChars (row.getD 2 "").data = "title".data →
      lowerChars (row.getD 3 "").data = "artist".data →
      eligiblePair row = none) := by
  refine ⟨fun rows => ⟨import_songs_eq rows, ?_, ?_⟩, ?_, ?_⟩
  · rw [import_songs_eq rows]
    exact keepFirstSpec_nodup _
  · rw [import_songs_eq rows]
    exact keepFirstSpec_sublist _
  · intro row hlen
    unfold eligiblePair
    rw [if_neg (by omega)]
  · intro row ht ha
    unfold eligiblePair
    by_cases hlen : 4 ≤ row.length
    · rw [if_pos hlen]
      simp only
      rw [if_neg]
      intro hcond
      apply hcond.2.2
      unfold isHeaderPair
      have hwt : ∀ x ∈ "title".data, Char.isWhitespace x = false := by decide
      have hwa : ∀ x ∈ "artist".data, Char.isWhitespace x = false := by decide
      rw [stripChars_eq_self _ (nonws_of_lower_eq _ hwt _ ht)]
      rw [stripChars_eq_self _ (nonws_of_lower_eq _ hwa _ ha)]
      rw [ht, ha]
      simp
    · rw [if_neg hlen]

/-- Witness for C7 at concrete rows: a short row and a header row both
contribute nothing. -/
theorem c7_witness :
    eligiblePair ["x"] = none ∧
    eligiblePair ["", "", "Title", "Artist"] = none :=
  ⟨c7_import_parse.2.1 ["x"] (by decide),
   c7_import_parse.2.2 ["", "", "Title", "Artist"] (by decide) (by decide)⟩

/-- Python "pattern in text" on character lists. -/
def hasSub (l pat : List Char) : Bool :=
  match l with
  | [] => decide (pat = [])
  | _ :: t => pat.isPrefixOf l || hasSub t pat

/-- The quota test of src/shazam_import.py line 238:
"quota" in error_str.lower() or "quotaExceeded" in error_str or
"403" in error_str. -/
def quotaError (e : String) : Bool :=
  hasSub (lowerChars e.data) "quota".data ||
  hasSub e.data "quotaExceeded".data ||
  hasSub e.data "403".data

/-- Outcome of the playlist-setup failure branch of
add_songs_to_shazam_playlist. -/
inductive FallbackAction where
  | writeFallback
  | reportOnly
  | proceed
deriving DecidableEq

/-- src/shazam_import.py lines 224-249: playlist_id is the value
returned by get_or_create_shazam_playlist (None on failure), error_str
the text of an exception raised by it (None when no exception escaped).
The code runs: if not playlist_id: { if not error_str: error_str = "";
if (error_str and quota-test) or (playlist_id is None): write the
fallback CSV } else: report the error without writing.  Python
truthiness: None and the empty string are falsy. -/
def setup_fallback_action (playlist_id : Option String)
    (error_str : Option String) : FallbackAction :=
  if playlist_id = none ∨ playlist_id = some "" then
    let e := match error_str with
      | none => ""
      | some s => s
    if (¬ e = "" ∧ quotaError e = true) ∨ playlist_id = none then
      FallbackAction.writeFallback
    else FallbackAction.reportOnly
  else FallbackAction.proceed

/-- C8 counterexample: a setup failure whose error text is not
quota-related still writes the fallback file, because the branch tests
playlist_id is None after the quota test and that disjunct is true on
every failure. -/
theorem c8_counterexample :
    setup_fallback_action none (some "the network is unreachable") =
      FallbackAction.writeFallback ∧
    quotaError "the network is unreachable" = false := by
  decide

/-- C8 amended: whenever setting up the destination playlist yields no
playlist id (None), the fallback file with the deduplicated import
queries is written, whether or not the failure is a quota error; the
report-without-writing branch is unreachable for a None playlist id. -/
theorem c8_fallback_on_any_failure (err : Option String) :
    setup_fallback_action none err = FallbackAction.writeFallback := by
  unfold setup_fallback_action
  rw [if_pos (Or.inl rfl)]
  simp

end RDY
